import Mathlib

/-!
Verification of the DFS backend of the ior benchmark (src/aiori-DFS.c)
against its natural-language specification.

The C code is shallowly embedded: each C function that the claims touch
is translated into an executable Lean definition.  External collaborators
(the DAOS storage engine, the MPI collective substrate) are modelled by
oracles: explicit lists or functions supplying the return values of the
external calls, and by the mathematical meaning of the collective
reductions (broadcast, barrier, all-reduce).
-/

/-! ## Path resolver (parse_filename, glibc basename/dirname)

parse_filename calls libgen basename() and dirname().  The file includes
libgen.h, so glibc substitutes the POSIX (__xpg_) basename.  Both are
modelled below on lists of characters, following the glibc algorithms,
including the treatment of trailing slashes and of a leading double
slash. -/

def stripTrailSlashes (l : List Char) : List Char :=
  (l.reverse.dropWhile (fun c => c = '/')).reverse

/-- POSIX basename, as implemented by glibc __xpg_basename:
empty path gives the dot directory, an all-slash path gives the root
string, otherwise the part after the last slash once trailing slashes
are stripped. -/
def basenameList (l : List Char) : List Char :=
  if l = [] then ['.']
  else
    let t := stripTrailSlashes l
    if t = [] then ['/']
    else (t.reverse.takeWhile (fun c => c ≠ '/')).reverse

/-- glibc dirname: strip trailing slashes; if no slash remains the result
is the dot directory (with the special case of the one-character root
path); otherwise drop the final component together with the slash run in
front of it, keeping a double slash when the slash run ends exactly at
index 1 (the glibc leading // rule). -/
def dirnameList (l : List Char) : List Char :=
  let t := stripTrailSlashes l
  if t.contains '/' then
    let r := t.reverse
    let d := ((r.dropWhile (fun c => c ≠ '/')).drop 1).reverse
    let d2 := stripTrailSlashes d
    if d2 = [] then
      if d.length = 1 then ['/', '/'] else ['/']
    else d2
  else
    if t = [] then (if l.length = 1 then ['/'] else ['.'])
    else ['.']

def basename_c (s : String) : String := String.mk (basenameList s.data)

def dirname_c (s : String) : String := String.mk (dirnameList s.data)

def rootStr : String := "/"

def dotStr : String := "."

/-- The cont_name post-processing of parse_filename: if the directory
component starts with a dot or does not start with a slash it is
resolved against the current working directory, with three sub-cases
exactly as in the C code (component equal to the dot directory, component
with a leading dot, other relative component). -/
def resolveContName (cont cwd : String) : String :=
  match cont.data with
  | [] => cont
  | c :: rest =>
    if c = '.' ∨ c ≠ '/' then
      if cont = dotStr then cwd
      else if c = '.' then cwd ++ String.mk rest
      else cwd ++ rootStr ++ cont
    else cont

/-- parse_filename from aiori-DFS.c, for a non-null path, with allocation
assumed to succeed.  Returns (obj_name, cont_name); obj_name is none for
the root path. -/
def parse_filename (path cwd : String) : Option String × String :=
  if path = rootStr then (none, rootStr)
  else (some (basename_c path), resolveContName (dirname_c path) cwd)

/-- Parent resolution as the (amended) specification words it: an
absolute directory component is kept; a component equal to the dot
directory yields the working directory; a component with a leading dot
yields the working directory followed by the component without its dot
and with no separator inserted; any other relative component yields the
working directory, a separator, and the component. -/
def resolveParentSpec (dir cwd : String) : String :=
  match dir.data with
  | [] => dir
  | c :: rest =>
    if c = '/' then dir
    else if dir = dotStr then cwd
    else if c = '.' then cwd ++ String.mk rest
    else cwd ++ rootStr ++ dir

/-! ## Collective create/open protocol (DFS_Create)

DFS_Create parses the file name, looks the parent directory up, and then
branches on filePerProc and on the rank: rank 0 (or every rank when each
process has its own file) opens with O_CREAT, O_RDWR and O_EXCL and then
enters the barrier, every other rank enters the barrier first and then
opens with O_RDWR only.  The per-rank sequence of externally visible
events is recorded. -/

inductive CreateEvent where
  | openCall (excl : Bool) (nm : String)
  | barrier
deriving DecidableEq

def hasExclCreate (evs : List CreateEvent) : Bool :=
  evs.any fun e =>
    match e with
    | CreateEvent.openCall true _ => true
    | _ => false

/-- Event trace of DFS_Create on one rank.  A failed parse (root path)
or a failed parent lookup jumps to the cleanup label and produces no
open and no barrier. -/
def DFS_Create_events (filePerProc : Bool) (r : Nat) (path cwd : String)
    (lookupOk : Bool) : List CreateEvent :=
  match parse_filename path cwd with
  | (some nm, _) =>
    if lookupOk = false then []
    else if filePerProc || r == 0 then
      [CreateEvent.openCall true nm, CreateEvent.barrier]
    else
      [CreateEvent.barrier, CreateEvent.openCall false nm]
  | (none, _) => []

/-! ## Chunked transfer engine (DFS_Xfer)

The while loop of DFS_Xfer is embedded as a structurally recursive
function over an oracle list of storage-engine results, one entry per
dfs_write/dfs_read call.  The state it threads is the remaining count,
the buffer cursor (ptr minus buffer) and the retry counter; the file
offset is passed to every call unchanged, exactly as param->offset is in
the C code.  Every issued call is recorded. -/

inductive XAccess where
  | read
  | write
deriving DecidableEq

inductive EngineStep where
  | writeRes (rc : Int)
  | readRes (rc : Int) (ret : Nat)
deriving DecidableEq

structure XferCall where
  isWrite : Bool
  offset : Int
  reqLen : Nat
  cursor : Nat
  moved : Nat
deriving DecidableEq

inductive XferRes where
  | done
  | returned (v : Int)
  | exitSingle
  | errRetries
  | assertFail
  | badOracle
deriving DecidableEq

/-- One execution of the while loop of DFS_Xfer.  A write either fails
(the function returns -1 at once) or is accounted as having moved the
whole remaining count; a short read triggers the singleXferAttempt exit
or, past MAX_RETRY, the fatal too-many-retries error; a read larger than
remaining trips the assert.  Otherwise remaining shrinks, the cursor
advances, the retry counter grows and the loop repeats. -/
def xferLoop (access : XAccess) (offset : Int) (single : Bool) (maxRetry : Nat) :
    List EngineStep → Nat → Nat → Nat → XferRes × List XferCall
  | _, 0, _, _ => (XferRes.done, [])
  | [], _ + 1, _, _ => (XferRes.badOracle, [])
  | EngineStep.writeRes rc :: rest, rem + 1, cursor, retries =>
    match access with
    | XAccess.write =>
      if rc ≠ 0 then
        (XferRes.returned (-1), [⟨true, offset, rem + 1, cursor, 0⟩])
      else
        let next := xferLoop access offset single maxRetry rest 0
          (cursor + (rem + 1)) (retries + 1)
        (next.1, ⟨true, offset, rem + 1, cursor, rem + 1⟩ :: next.2)
    | XAccess.read => (XferRes.badOracle, [])
  | EngineStep.readRes _ ret :: rest, rem + 1, cursor, retries =>
    match access with
    | XAccess.read =>
      if ret < rem + 1 then
        if single then
          (XferRes.exitSingle, [⟨false, offset, rem + 1, cursor, ret⟩])
        else if maxRetry < retries then
          (XferRes.errRetries, [⟨false, offset, rem + 1, cursor, ret⟩])
        else
          let next := xferLoop access offset single maxRetry rest (rem + 1 - ret)
            (cursor + ret) (retries + 1)
          (next.1, ⟨false, offset, rem + 1, cursor, ret⟩ :: next.2)
      else if rem + 1 < ret then
        (XferRes.assertFail, [⟨false, offset, rem + 1, cursor, ret⟩])
      else
        let next := xferLoop access offset single maxRetry rest (rem + 1 - ret)
          (cursor + ret) (retries + 1)
        (next.1, ⟨false, offset, rem + 1, cursor, ret⟩ :: next.2)
    | XAccess.write => (XferRes.badOracle, [])

/-- DFS_Xfer: run the loop with remaining initialised to the requested
length; when the loop drains the request the original length is
returned. -/
def DFS_Xfer (access : XAccess) (offset : Int) (single : Bool) (maxRetry : Nat)
    (length : Nat) (steps : List EngineStep) : XferRes × List XferCall :=
  match xferLoop access offset single maxRetry steps length 0 0 with
  | (XferRes.done, calls) => (XferRes.returned (Int.ofNat length), calls)
  | other => other

/-- Per-attempt bound check: each attempt moves no more than the count
still remaining when it is issued. -/
def movedBounded : List Nat → Nat → Bool
  | [], _ => true
  | a :: rest, rem => decide (a ≤ rem) && movedBounded rest (rem - a)

/-! ## Aggregate metadata query (DFS_GetFileSize)

The MPI all-reduce collectives are modelled by their mathematical
meaning over the list of the per-rank observed sizes; the own rank's
value is a member of that list and seeds the fold, as MPI_Allreduce
combines the local fsize with every other rank's. -/

def allreduceSum (vs : List Int) : Int := vs.foldl (· + ·) 0

def allreduceMin (vs : List Int) (own : Int) : Int := vs.foldl min own

def allreduceMax (vs : List Int) (own : Int) : Int := vs.foldl max own

/-- DFS_GetFileSize after a successful local lookup and size read:
per-process files are summed; for a shared file min and max are both
reduced, and on a mismatch the warning is emitted and the minimum is
reported, otherwise the locally observed size is returned.  The Bool
records whether the inconsistency warning was emitted. -/
def DFS_GetFileSize (filePerProc : Bool) (sizes : List Int)
    (i : Fin sizes.length) : Int × Bool :=
  let fsize := sizes.get i
  if filePerProc then (allreduceSum sizes, false)
  else
    let tmpMin := allreduceMin sizes fsize
    let tmpMax := allreduceMax sizes fsize
    if tmpMin ≠ tmpMax then (tmpMin, true) else (fsize, false)

/-! ## Session teardown (DFS_Finalize)

After the unmount and container close succeed, rank 0 overwrites rc with
the daos_cont_destroy status when destroy is requested; MPI_Bcast with
root 0 then replaces every rank's rc with rank 0's value; finally
`if (rc) DCHECK(rc, ...)` runs on every rank, and DCHECK terminates the
process only when its argument is negative. -/

def finalize_rc_before_bcast (destroy : Bool) (destroyRc : Int)
    (closeRc : Nat → Int) (r : Nat) : Int :=
  if r = 0 ∧ destroy then destroyRc else closeRc r

def finalize_rc_after_bcast (destroy : Bool) (destroyRc : Int)
    (closeRc : Nat → Int) (_r : Nat) : Int :=
  finalize_rc_before_bcast destroy destroyRc closeRc 0

/-- The post-broadcast check of DFS_Finalize: `if (rc) DCHECK(rc, ...)`.
True exactly when the worker terminates with the error. -/
def finalize_aborts (rc : Int) : Bool :=
  if rc ≠ 0 then decide (rc < 0) else false

/-! ## DFS_Access

DFS_Access parses the path, looks the parent up (DERR aborts to cleanup
on a negative rc), replaces an obj name equal to the dot string by the
null pointer, stats, and finally maps any non-zero rc to -1.  The
argument given to dfs_stat is recorded, with none meaning dfs_stat was
never reached. -/

structure AccessOutcome where
  result : Int
  statArg : Option (Option String)
deriving DecidableEq

def DFS_Access (path cwd : String) (lookupRc : Int)
    (statRc : Option String → Int) : AccessOutcome :=
  match parse_filename path cwd with
  | (nameOpt, _) =>
    if lookupRc < 0 then { result := -1, statArg := none }
    else
      let nameArg := if nameOpt = some dotStr then none else nameOpt
      let rc := statRc nameArg
      { result := if rc ≠ 0 then -1 else 0, statArg := some nameArg }

/-! ## Helper lemmas -/

theorem dropWhile_head_false {α : Type} (p : α → Bool) (l : List α) (x : α)
    (xs : List α) (h : l.dropWhile p = x :: xs) : p x = false := by
  induction l with
  | nil => simp at h
  | cons a t ih =>
    rw [List.dropWhile_cons] at h
    split at h
    · exact ih h
    · next hp =>
      injection h with h1 _
      subst h1
      simpa using hp

theorem string_mk_eq_dot (c : Char) (rest : List Char) :
    ((⟨c :: rest⟩ : String) = dotStr) ↔ (c = '.' ∧ rest = []) := by
  constructor
  · intro h
    have hdat : c :: rest = dotStr.data := congrArg String.data h
    have hd : dotStr.data = ['.'] := by decide
    rw [hd] at hdat
    injection hdat with h1 h2
    exact ⟨h1, h2⟩
  · rintro ⟨rfl, rfl⟩
    decide

theorem resolveContName_eq_spec (cont cwd : String) :
    resolveContName cont cwd = resolveParentSpec cont cwd := by
  obtain ⟨l⟩ := cont
  cases l with
  | nil => rfl
  | cons c rest =>
    simp only [resolveContName, resolveParentSpec]
    by_cases h1 : c = '/'
    · subst h1
      have hne : ¬ ((⟨'/' :: rest⟩ : String) = dotStr) := by
        rw [string_mk_eq_dot]
        intro h
        exact absurd h.1 (by decide)
      simp [hne]
    · by_cases h2 : (⟨c :: rest⟩ : String) = dotStr
      · have hc : c = '.' := ((string_mk_eq_dot c rest).mp h2).1
        simp [h1, h2, hc]
      · by_cases h3 : c = '.'
        · simp [h1, h2, h3]
        · simp [h1, h2, h3]

theorem basename_c_decomp (path : String)
    (hns : ∃ c ∈ path.data, c ≠ '/') :
    (basename_c path).data ≠ [] ∧ (∀ c ∈ (basename_c path).data, c ≠ '/') ∧
    ∃ pre slashes, path.data = pre ++ (basename_c path).data ++ slashes ∧
      (∀ c ∈ slashes, c = '/') ∧ (pre = [] ∨ pre.getLast? = some '/') := by
  obtain ⟨c0, hc0mem, hc0⟩ := hns
  have hl : path.data ≠ [] := by
    intro h
    rw [h] at hc0mem
    simp at hc0mem
  have hr : path.data.reverse.dropWhile (fun c => c = '/') ≠ [] := by
    intro h
    have hall := List.dropWhile_eq_nil_iff.mp h
    have := hall c0 (List.mem_reverse.mpr hc0mem)
    exact hc0 (of_decide_eq_true this)
  obtain ⟨x, xs, hx⟩ := List.exists_cons_of_ne_nil hr
  have hxnot : (fun c => decide (c = '/')) x = false :=
    dropWhile_head_false (fun c => decide (c = '/')) path.data.reverse x xs hx
  have hxne : x ≠ '/' := by simpa using hxnot
  have htne : (path.data.reverse.dropWhile (fun c => c = '/')).reverse ≠ [] := by
    simp [hr]
  have hb : (basename_c path).data =
      ((path.data.reverse.dropWhile (fun c => c = '/')).takeWhile
        (fun c => c ≠ '/')).reverse := by
    show basenameList path.data = _
    rw [basenameList, if_neg hl]
    have ht : stripTrailSlashes path.data =
        (path.data.reverse.dropWhile (fun c => c = '/')).reverse := rfl
    rw [ht, if_neg htne, List.reverse_reverse]
  have htake : (path.data.reverse.dropWhile (fun c => c = '/')).takeWhile
      (fun c => c ≠ '/') = x :: xs.takeWhile (fun c => c ≠ '/') := by
    rw [hx, List.takeWhile_cons, if_pos (by simpa using hxne)]
  refine ⟨?_, ?_,
    ((path.data.reverse.dropWhile (fun c => c = '/')).dropWhile
      (fun c => c ≠ '/')).reverse,
    (path.data.reverse.takeWhile (fun c => c = '/')).reverse, ?_, ?_, ?_⟩
  · rw [hb, htake]
    simp
  · intro c hc
    rw [hb] at hc
    have := List.mem_takeWhile_imp (List.mem_reverse.mp hc)
    simpa using this
  · rw [hb]
    have h1 : path.data.reverse.takeWhile (fun c => c = '/') ++
        path.data.reverse.dropWhile (fun c => c = '/') = path.data.reverse :=
      List.takeWhile_append_dropWhile _ _
    have h2 : (path.data.reverse.dropWhile (fun c => c = '/')).takeWhile
          (fun c => c ≠ '/') ++
        (path.data.reverse.dropWhile (fun c => c = '/')).dropWhile
          (fun c => c ≠ '/') =
        path.data.reverse.dropWhile (fun c => c = '/') :=
      List.takeWhile_append_dropWhile _ _
    have hrev : path.data.reverse =
        path.data.reverse.takeWhile (fun c => c = '/') ++
          ((path.data.reverse.dropWhile (fun c => c = '/')).takeWhile
              (fun c => c ≠ '/') ++
            (path.data.reverse.dropWhile (fun c => c = '/')).dropWhile
              (fun c => c ≠ '/')) := by
      rw [h2, h1]
    have hpd : path.data =
        (path.data.reverse.takeWhile (fun c => c = '/') ++
          ((path.data.reverse.dropWhile (fun c => c = '/')).takeWhile
              (fun c => c ≠ '/') ++
            (path.data.reverse.dropWhile (fun c => c = '/')).dropWhile
              (fun c => c ≠ '/'))).reverse := by
      rw [← hrev, List.reverse_reverse]
    conv_lhs => rw [hpd]
    rw [List.reverse_append, List.reverse_append]
  · intro c hc
    have := List.mem_takeWhile_imp (List.mem_reverse.mp hc)
    simpa using this
  · rcases hdw : (path.data.reverse.dropWhile (fun c => c = '/')).dropWhile
        (fun c => c ≠ '/') with _ | ⟨y, ys⟩
    · left
      simp
    · right
      have hy : (fun c => decide (c ≠ '/')) y = false :=
        dropWhile_head_false (fun c => decide (c ≠ '/'))
          (path.data.reverse.dropWhile (fun c => c = '/')) y ys hdw
      have hy2 : y = '/' := by simpa using hy
      subst hy2
      rw [List.reverse_cons]
      simp

theorem xferLoop_done_spec (a : XAccess) (off : Int) (sg : Bool) (mr : Nat)
    (steps : List EngineStep) :
    ∀ (rem cur rt : Nat) (calls : List XferCall),
      xferLoop a off sg mr steps rem cur rt = (XferRes.done, calls) →
      (calls.map XferCall.moved).sum = rem ∧
        movedBounded (calls.map XferCall.moved) rem = true := by
  induction steps with
  | nil =>
    intro rem cur rt calls h
    cases rem with
    | zero =>
      simp only [xferLoop] at h
      injection h with h1 h2
      subst h2
      simp [movedBounded]
    | succ n =>
      simp only [xferLoop] at h
      simp at h
  | cons st rest ih =>
    intro rem cur rt calls h
    cases rem with
    | zero =>
      simp only [xferLoop] at h
      injection h with h1 h2
      subst h2
      simp [movedBounded]
    | succ n =>
      cases st with
      | writeRes rc =>
        cases a with
        | read =>
          simp only [xferLoop] at h
          simp at h
        | write =>
          rcases hnext : xferLoop XAccess.write off sg mr rest 0
              (cur + (n + 1)) (rt + 1) with ⟨res, cs⟩
          simp only [xferLoop, hnext] at h
          by_cases hrc : rc ≠ 0
          · rw [if_pos hrc] at h
            simp at h
          · rw [if_neg hrc] at h
            injection h with h1 h2
            subst h1
            subst h2
            obtain ⟨hsum, hbd⟩ := ih 0 (cur + (n + 1)) (rt + 1) cs hnext
            constructor
            · simp [hsum]
            · simp [movedBounded, Nat.sub_self, hbd]
      | readRes rc0 ret =>
        cases a with
        | write =>
          simp only [xferLoop] at h
          simp at h
        | read =>
          rcases hnext : xferLoop XAccess.read off sg mr rest (n + 1 - ret)
              (cur + ret) (rt + 1) with ⟨res, cs⟩
          simp only [xferLoop, hnext] at h
          by_cases hlt : ret < n + 1
          · rw [if_pos hlt] at h
            cases sg with
            | true => simp at h
            | false =>
              simp only [Bool.false_eq_true, if_false] at h
              by_cases hmr : mr < rt
              · rw [if_pos hmr] at h
                simp at h
              · rw [if_neg hmr] at h
                injection h with h1 h2
                subst h1
                subst h2
                obtain ⟨hsum, hbd⟩ := ih (n + 1 - ret) (cur + ret) (rt + 1) cs hnext
                constructor
                · simp only [List.map_cons, List.sum_cons, hsum]
                  omega
                · simp only [movedBounded, List.map_cons, hbd, Bool.and_true,
                    decide_eq_true_eq]
                  simp [Nat.le_of_lt hlt, hbd]
          · rw [if_neg hlt] at h
            by_cases hgt : n + 1 < ret
            · rw [if_pos hgt] at h
              simp at h
            · rw [if_neg hgt] at h
              have hret : ret = n + 1 := by omega
              injection h with h1 h2
              subst h1
              subst h2
              obtain ⟨hsum, hbd⟩ := ih (n + 1 - ret) (cur + ret) (rt + 1) cs hnext
              constructor
              · simp only [List.map_cons, List.sum_cons, hsum]
                omega
              · simp only [movedBounded, List.map_cons]
                simp [hret, Nat.sub_self] at hbd ⊢
                exact hbd

theorem xferLoop_returned_only_neg (a : XAccess) (off : Int) (sg : Bool)
    (mr : Nat) (steps : List EngineStep) :
    ∀ (rem cur rt : Nat) (v : Int) (calls : List XferCall),
      xferLoop a off sg mr steps rem cur rt = (XferRes.returned v, calls) →
      v = -1 := by
  induction steps with
  | nil =>
    intro rem cur rt v calls h
    cases rem with
    | zero => simp only [xferLoop] at h; simp at h
    | succ n => simp only [xferLoop] at h; simp at h
  | cons st rest ih =>
    intro rem cur rt v calls h
    cases rem with
    | zero => simp only [xferLoop] at h; simp at h
    | succ n =>
      cases st with
      | writeRes rc =>
        cases a with
        | read => simp only [xferLoop] at h; simp at h
        | write =>
          rcases hnext : xferLoop XAccess.write off sg mr rest 0
              (cur + (n + 1)) (rt + 1) with ⟨res, cs⟩
          simp only [xferLoop, hnext] at h
          by_cases hrc : rc ≠ 0
          · rw [if_pos hrc] at h
            injection h with h1 h2
            injection h1 with hv
            omega
          · rw [if_neg hrc] at h
            injection h with h1 h2
            exact ih 0 (cur + (n + 1)) (rt + 1) v cs (by rw [hnext, h1])
      | readRes rc0 ret =>
        cases a with
        | write => simp only [xferLoop] at h; simp at h
        | read =>
          rcases hnext : xferLoop XAccess.read off sg mr rest (n + 1 - ret)
              (cur + ret) (rt + 1) with ⟨res, cs⟩
          simp only [xferLoop, hnext] at h
          by_cases hlt : ret < n + 1
          · rw [if_pos hlt] at h
            cases sg with
            | true => simp at h
            | false =>
              simp only [Bool.false_eq_true, if_false] at h
              by_cases hmr : mr < rt
              · rw [if_pos hmr] at h
                simp at h
              · rw [if_neg hmr] at h
                injection h with h1 h2
                exact ih (n + 1 - ret) (cur + ret) (rt + 1) v cs (by rw [hnext, h1])
          · rw [if_neg hlt] at h
            by_cases hgt : n + 1 < ret
            · rw [if_pos hgt] at h
              simp at h
            · rw [if_neg hgt] at h
              injection h with h1 h2
              exact ih (n + 1 - ret) (cur + ret) (rt + 1) v cs (by rw [hnext, h1])

theorem xferLoop_calls_frame (a : XAccess) (off : Int) (sg : Bool) (mr : Nat)
    (steps : List EngineStep) :
    ∀ (rem cur rt L : Nat), rem + cur = L →
      ∀ c ∈ (xferLoop a off sg mr steps rem cur rt).2,
        c.offset = off ∧ c.reqLen + c.cursor = L := by
  induction steps with
  | nil =>
    intro rem cur rt L hL c hc
    cases rem with
    | zero => simp only [xferLoop] at hc; simp at hc
    | succ n => simp only [xferLoop] at hc; simp at hc
  | cons st rest ih =>
    intro rem cur rt L hL c hc
    cases rem with
    | zero => simp only [xferLoop] at hc; simp at hc
    | succ n =>
      cases st with
      | writeRes rc =>
        cases a with
        | read => simp only [xferLoop] at hc; simp at hc
        | write =>
          simp only [xferLoop] at hc
          by_cases hrc : rc ≠ 0
          · rw [if_pos hrc] at hc
            rcases List.mem_singleton.mp hc with rfl
            exact ⟨rfl, hL⟩
          · rw [if_neg hrc] at hc
            rcases List.mem_cons.mp hc with rfl | hc2
            · exact ⟨rfl, hL⟩
            · simp at hc2
      | readRes rc0 ret =>
        cases a with
        | write => simp only [xferLoop] at hc; simp at hc
        | read =>
          simp only [xferLoop] at hc
          by_cases hlt : ret < n + 1
          · rw [if_pos hlt] at hc
            cases sg with
            | true =>
              simp only [if_true] at hc
              rcases List.mem_singleton.mp hc with rfl
              exact ⟨rfl, hL⟩
            | false =>
              simp only [Bool.false_eq_true, if_false] at hc
              by_cases hmr : mr < rt
              · rw [if_pos hmr] at hc
                rcases List.mem_singleton.mp hc with rfl
                exact ⟨rfl, hL⟩
              · rw [if_neg hmr] at hc
                rcases List.mem_cons.mp hc with rfl | hc2
                · exact ⟨rfl, hL⟩
                · exact ih (n + 1 - ret) (cur + ret) (rt + 1) L (by omega) c hc2
          · rw [if_neg hlt] at hc
            by_cases hgt : n + 1 < ret
            · rw [if_pos hgt] at hc
              rcases List.mem_singleton.mp hc with rfl
              exact ⟨rfl, hL⟩
            · rw [if_neg hgt] at hc
              rcases List.mem_cons.mp hc with rfl | hc2
              · exact ⟨rfl, hL⟩
              · exact ih (n + 1 - ret) (cur + ret) (rt + 1) L (by omega) c hc2

theorem xferLoop_zero_reads (off : Int) (mr cur : Nat) :
    ∀ (k : Nat), ∀ (rt rem : Nat), 0 < rem → 1 ≤ k → mr + 2 ≤ k + rt →
      (xferLoop XAccess.read off false mr
        (List.replicate k (EngineStep.readRes 0 0)) rem cur rt).1 =
        XferRes.errRetries := by
  intro k
  induction k with
  | zero => intro rt rem h1 h2 h3; omega
  | succ n ih =>
    intro rt rem h1 h2 h3
    cases rem with
    | zero => omega
    | succ m =>
      rw [List.replicate_succ]
      simp only [xferLoop, Nat.succ_pos, if_pos, Bool.false_eq_true, if_false]
      by_cases hmr : mr < rt
      · rw [if_pos hmr]
      · rw [if_neg hmr]
        exact ih (rt + 1) (m + 1) (Nat.succ_pos m) (by omega) (by omega)

theorem countP_range_one (p : Nat → Bool) :
    ∀ N, 1 ≤ N → p 0 = true → (∀ r, r ≠ 0 → p r = false) →
      (List.range N).countP p = 1 := by
  intro N
  induction N with
  | zero => intro h; omega
  | succ n ih =>
    intro _ hp0 hpr
    rw [List.range_succ, List.countP_append]
    cases n with
    | zero => simp [hp0]
    | succ m =>
      rw [ih (by omega) hp0 hpr]
      have hm : p (m + 1) = false := hpr (m + 1) (by omega)
      simp [hm]

theorem foldl_add_eq_sum : ∀ (l : List Int) (a : Int),
    l.foldl (· + ·) a = a + l.sum := by
  intro l
  induction l with
  | nil => intro a; simp
  | cons b t ih =>
    intro a
    rw [List.foldl_cons, List.sum_cons, ih, add_assoc]

theorem foldl_min_le_init : ∀ (l : List Int) (a : Int), l.foldl min a ≤ a := by
  intro l
  induction l with
  | nil => intro a; simp
  | cons b t ih =>
    intro a
    rw [List.foldl_cons]
    exact le_trans (ih (min a b)) (min_le_left a b)

theorem foldl_min_le_mem : ∀ (l : List Int) (a x : Int), x ∈ l →
    l.foldl min a ≤ x := by
  intro l
  induction l with
  | nil => intro a x hx; simp at hx
  | cons b t ih =>
    intro a x hx
    rw [List.foldl_cons]
    rcases List.mem_cons.mp hx with rfl | hx2
    · exact le_trans (foldl_min_le_init t (min a x)) (min_le_right a x)
    · exact ih (min a b) x hx2

theorem foldl_min_choice : ∀ (l : List Int) (a : Int),
    l.foldl min a = a ∨ l.foldl min a ∈ l := by
  intro l
  induction l with
  | nil => intro a; left; rfl
  | cons b t ih =>
    intro a
    rw [List.foldl_cons]
    rcases ih (min a b) with h | h
    · rcases min_choice a b with h2 | h2
      · left; rw [h, h2]
      · right; rw [h, h2]; exact List.mem_cons_self b t
    · right; exact List.mem_cons_of_mem b h

theorem foldl_min_const : ∀ (l : List Int) (a : Int), (∀ x ∈ l, x = a) →
    l.foldl min a = a := by
  intro l
  induction l with
  | nil => intro a _; rfl
  | cons b t ih =>
    intro a hall
    rw [List.foldl_cons]
    have hb : b = a := hall b (List.mem_cons_self b t)
    rw [hb, min_self]
    exact ih a fun x hx => hall x (List.mem_cons_of_mem b hx)

theorem foldl_max_ge_init : ∀ (l : List Int) (a : Int), a ≤ l.foldl max a := by
  intro l
  induction l with
  | nil => intro a; simp
  | cons b t ih =>
    intro a
    rw [List.foldl_cons]
    exact le_trans (le_max_left a b) (ih (max a b))

theorem foldl_max_ge_mem : ∀ (l : List Int) (a x : Int), x ∈ l →
    x ≤ l.foldl max a := by
  intro l
  induction l with
  | nil => intro a x hx; simp at hx
  | cons b t ih =>
    intro a x hx
    rw [List.foldl_cons]
    rcases List.mem_cons.mp hx with rfl | hx2
    · exact le_trans (le_max_right a x) (foldl_max_ge_init t (max a x))
    · exact ih (max a b) x hx2

theorem foldl_max_const : ∀ (l : List Int) (a : Int), (∀ x ∈ l, x = a) →
    l.foldl max a = a := by
  intro l
  induction l with
  | nil => intro a _; rfl
  | cons b t ih =>
    intro a hall
    rw [List.foldl_cons]
    have hb : b = a := hall b (List.mem_cons_self b t)
    rw [hb, max_self]
    exact ih a fun x hx => hall x (List.mem_cons_of_mem b hx)

/-! ## Claim theorems -/

/-- C1: with a shared target file (perProcessFile false) and more than
one worker, exactly one worker — rank 0 — issues the exclusive create
to the storage engine and then releases the barrier, while every other
rank first waits at the barrier and then opens the same name without
exclusive-create semantics; the number of exclusive creates is one,
never zero and never the number of workers. -/
theorem C1_one_exclusive_create (N : Nat) (path cwd d nm : String)
    (hN : 1 < N) (hp : parse_filename path cwd = (some nm, d)) :
    (List.range N).countP
        (fun r => hasExclCreate (DFS_Create_events false r path cwd true)) = 1
    ∧ DFS_Create_events false 0 path cwd true
        = [CreateEvent.openCall true nm, CreateEvent.barrier]
    ∧ (∀ r, 0 < r → DFS_Create_events false r path cwd true
        = [CreateEvent.barrier, CreateEvent.openCall false nm])
    ∧ (List.range N).countP
        (fun r => hasExclCreate (DFS_Create_events false r path cwd true)) ≠ 0
    ∧ (List.range N).countP
        (fun r => hasExclCreate (DFS_Create_events false r path cwd true)) ≠ N := by
  have h0 : DFS_Create_events false 0 path cwd true
      = [CreateEvent.openCall true nm, CreateEvent.barrier] := by
    simp [DFS_Create_events, hp]
  have hrpos : ∀ r, 0 < r → DFS_Create_events false r path cwd true
      = [CreateEvent.barrier, CreateEvent.openCall false nm] := by
    intro r hr
    simp [DFS_Create_events, hp, hr.ne']
  have hcount : (List.range N).countP
      (fun r => hasExclCreate (DFS_Create_events false r path cwd true)) = 1 := by
    refine countP_range_one _ N (by omega) ?_ ?_
    · simp [h0, hasExclCreate]
    · intro r hr
      simp [hrpos r (Nat.pos_of_ne_zero hr), hasExclCreate]
  exact ⟨hcount, h0, hrpos, by omega, by omega⟩

theorem C1_one_exclusive_create_witness :
    (1 < 3 ∧ parse_filename ("a/b") ("/w") = (some ("b"), ("/w/a")))
    ∧ (List.range 3).countP
        (fun r => hasExclCreate (DFS_Create_events false r ("a/b") ("/w") true)) = 1
    ∧ DFS_Create_events false 1 ("a/b") ("/w") true
        = [CreateEvent.barrier, CreateEvent.openCall false ("b")] := by
  have h := C1_one_exclusive_create 3 ("a/b") ("/w") ("/w/a") ("b")
    (by decide) (by decide)
  exact ⟨⟨by decide, by decide⟩, h.1, h.2.2.1 1 (by decide)⟩

/-- C6 (amended): for any path other than the root that contains a
non-separator character, the resolver's leaf is the final path
component — the path decomposes as prefix, leaf, trailing separators,
with the leaf non-empty and separator-free and the prefix empty or
ending in the separator — and the parent is obtained from the POSIX
dirname of the path as follows: kept when absolute; the working
directory alone when the component is exactly the dot; the working
directory plus the component without its leading dot and with no
separator inserted when the component starts with a dot; otherwise the
working directory, a separator and the component.  For the root path the
leaf is empty and the parent is the root marker. -/
theorem C6_parse_filename_contract (path cwd : String) (hroot : path ≠ rootStr)
    (hns : ∃ c ∈ path.data, c ≠ '/') :
    (parse_filename path cwd).1 = some (basename_c path)
    ∧ (basename_c path).data ≠ []
    ∧ (∀ c ∈ (basename_c path).data, c ≠ '/')
    ∧ (∃ pre slashes, path.data = pre ++ (basename_c path).data ++ slashes ∧
        (∀ c ∈ slashes, c = '/') ∧ (pre = [] ∨ pre.getLast? = some '/'))
    ∧ (parse_filename path cwd).2 = resolveParentSpec (dirname_c path) cwd
    ∧ parse_filename rootStr cwd = (none, rootStr) := by
  obtain ⟨h1, h2, h3⟩ := basename_c_decomp path hns
  refine ⟨?_, h1, h2, h3, ?_, ?_⟩
  · simp [parse_filename, hroot]
  · simp [parse_filename, hroot, resolveContName_eq_spec]
  · simp [parse_filename]

theorem C6_parse_filename_contract_witness :
    (("a/b" : String) ≠ rootStr ∧ (∃ c ∈ ("a/b" : String).data, c ≠ '/'))
    ∧ (parse_filename ("a/b") ("/w")).2
        = resolveParentSpec (dirname_c ("a/b")) ("/w")
    ∧ (parse_filename ("a/b") ("/w")).1 = some (basename_c ("a/b")) := by
  have h := C6_parse_filename_contract ("a/b") ("/w") (by decide) (by decide)
  exact ⟨⟨by decide, by decide⟩, h.2.2.2.2.1, h.1⟩

/-- C6 counterexample: for the path .foo/f with working directory /w the
code's parent is /wfoo — the leading dot of the directory component is
dropped and no separator is inserted — not the separator-concatenation
/w/.foo that the claim describes. -/
theorem C6_counterexample :
    dirname_c (".foo/f") = (".foo" : String)
    ∧ parse_filename (".foo/f") ("/w") = (some ("f"), ("/wfoo"))
    ∧ (parse_filename (".foo/f") ("/w")).2
        ≠ ("/w" : String) ++ rootStr ++ dirname_c (".foo/f") := by
  refine ⟨by decide, by decide, by decide⟩

/-- C2: a transfer request of length L that returns without a fatal
error never moves more than the current remaining count in any single
attempt, the per-attempt moved counts sum to L, and the returned value
is L itself — the original requested length. -/
theorem C2_xfer_accounting (a : XAccess) (off : Int) (sg : Bool) (mr L : Nat)
    (steps : List EngineStep) (v : Int) (calls : List XferCall)
    (h : DFS_Xfer a off sg mr L steps = (XferRes.returned v, calls))
    (hv : v ≠ -1) :
    v = (L : Int) ∧ (calls.map XferCall.moved).sum = L ∧
      movedBounded (calls.map XferCall.moved) L = true := by
  rcases hr : xferLoop a off sg mr steps L 0 0 with ⟨res, cs⟩
  unfold DFS_Xfer at h
  rw [hr] at h
  cases res with
  | done =>
    injection h with h1 h2
    injection h1 with hveq
    subst h2
    obtain ⟨hs, hb⟩ := xferLoop_done_spec a off sg mr steps L 0 0 cs hr
    exact ⟨hveq.symm, hs, hb⟩
  | returned w =>
    injection h with h1 h2
    injection h1 with hw
    have hneg := xferLoop_returned_only_neg a off sg mr steps L 0 0 w cs hr
    omega
  | exitSingle => simp at h
  | errRetries => simp at h
  | assertFail => simp at h
  | badOracle => simp at h

theorem C2_xfer_accounting_witness :
    DFS_Xfer XAccess.read 0 false 5 10
        [EngineStep.readRes 0 4, EngineStep.readRes 0 6]
      = (XferRes.returned 10,
         [⟨false, 0, 10, 0, 4⟩, ⟨false, 0, 6, 4, 6⟩])
    ∧ (10 : Int) ≠ -1
    ∧ (10 : Int) = ((10 : Nat) : Int)
    ∧ (([⟨false, 0, 10, 0, 4⟩, ⟨false, 0, 6, 4, 6⟩] : List XferCall).map
        XferCall.moved).sum = 10
    ∧ movedBounded (([⟨false, 0, 10, 0, 4⟩, ⟨false, 0, 6, 4, 6⟩] :
        List XferCall).map XferCall.moved) 10 = true := by
  have h := C2_xfer_accounting XAccess.read 0 false 5 10
    [EngineStep.readRes 0 4, EngineStep.readRes 0 6] 10
    [⟨false, 0, 10, 0, 4⟩, ⟨false, 0, 6, 4, 6⟩] (by decide) (by decide)
  exact ⟨by decide, by decide, h.1, h.2.1, h.2.2⟩

/-- C3: after an attempt that reads fewer bytes than remaining, the
engine exits at once when single-attempt semantics are configured;
otherwise, while the retry counter is within the maximum, the counter
is incremented and the loop continues; once the counter exceeds the
maximum the transfer fails fatally with the too-many-retries error; and
a read fed only zero-byte results for enough attempts therefore ends in
that fatal error rather than returning. -/
theorem C3_retry_policy (off : Int) (mr : Nat) (rc : Int)
    (ret rem cur rt k L : Nat) (rest : List EngineStep) :
    (ret < rem →
      xferLoop XAccess.read off true mr (EngineStep.readRes rc ret :: rest)
          rem cur rt
        = (XferRes.exitSingle, [⟨false, off, rem, cur, ret⟩]))
    ∧ (ret < rem → rt ≤ mr →
      xferLoop XAccess.read off false mr (EngineStep.readRes rc ret :: rest)
          rem cur rt
        = ((xferLoop XAccess.read off false mr rest (rem - ret) (cur + ret)
              (rt + 1)).1,
           ⟨false, off, rem, cur, ret⟩ ::
             (xferLoop XAccess.read off false mr rest (rem - ret) (cur + ret)
              (rt + 1)).2))
    ∧ (ret < rem → mr < rt →
      xferLoop XAccess.read off false mr (EngineStep.readRes rc ret :: rest)
          rem cur rt
        = (XferRes.errRetries, [⟨false, off, rem, cur, ret⟩]))
    ∧ (0 < L → mr + 2 ≤ k →
      (DFS_Xfer XAccess.read off false mr L
          (List.replicate k (EngineStep.readRes 0 0))).1 = XferRes.errRetries) := by
  refine ⟨?_, ?_, ?_, ?_⟩
  · intro hlt
    cases rem with
    | zero => omega
    | succ n =>
      simp only [xferLoop]
      rw [if_pos hlt]
      simp
  · intro hlt hle
    cases rem with
    | zero => omega
    | succ n =>
      simp only [xferLoop]
      rw [if_pos hlt]
      simp only [Bool.false_eq_true, if_false]
      rw [if_neg (by omega : ¬ mr < rt)]
  · intro hlt hgt
    cases rem with
    | zero => omega
    | succ n =>
      simp only [xferLoop]
      rw [if_pos hlt]
      simp only [Bool.false_eq_true, if_false]
      rw [if_pos hgt]
  · intro hL hk
    rcases hres : xferLoop XAccess.read off false mr
        (List.replicate k (EngineStep.readRes 0 0)) L 0 0 with ⟨res, cs⟩
    have hz := xferLoop_zero_reads off mr 0 k 0 L hL (by omega) (by omega)
    rw [hres] at hz
    unfold DFS_Xfer
    rw [hres]
    cases res <;> simp_all

theorem C3_retry_policy_witness :
    xferLoop XAccess.read 0 true 2 [EngineStep.readRes 0 1] 3 0 0
      = (XferRes.exitSingle, [⟨false, 0, 3, 0, 1⟩])
    ∧ xferLoop XAccess.read 0 false 2 [EngineStep.readRes 0 1] 3 0 5
      = (XferRes.errRetries, [⟨false, 0, 3, 0, 1⟩])
    ∧ (DFS_Xfer XAccess.read 0 false 2 4
        (List.replicate 4 (EngineStep.readRes 0 0))).1 = XferRes.errRetries :=
  ⟨(C3_retry_policy 0 2 0 1 3 0 0 4 4 []).1 (by decide),
   (C3_retry_policy 0 2 0 1 3 0 5 4 4 []).2.2.1 (by decide) (by decide),
   (C3_retry_policy 0 2 0 1 3 0 5 4 4 []).2.2.2 (by decide) (by decide)⟩

/-- C4: a failing underlying write makes the transfer return the error
immediately after that single call — writes are never partially
retried — and a successful underlying write is accounted as having
moved exactly the full remaining count requested in that attempt, so a
write of length L completes in one call returning L. -/
theorem C4_write_policy (off : Int) (sg : Bool) (mr rem cur rt L : Nat)
    (rc : Int) (rest : List EngineStep) :
    (rc ≠ 0 →
      xferLoop XAccess.write off sg mr (EngineStep.writeRes rc :: rest)
          (rem + 1) cur rt
        = (XferRes.returned (-1), [⟨true, off, rem + 1, cur, 0⟩]))
    ∧ xferLoop XAccess.write off sg mr (EngineStep.writeRes 0 :: rest)
          (rem + 1) cur rt
        = (XferRes.done, [⟨true, off, rem + 1, cur, rem + 1⟩])
    ∧ (rc ≠ 0 → 0 < L →
      DFS_Xfer XAccess.write off sg mr L (EngineStep.writeRes rc :: rest)
        = (XferRes.returned (-1), [⟨true, off, L, 0, 0⟩]))
    ∧ (0 < L →
      DFS_Xfer XAccess.write off sg mr L (EngineStep.writeRes 0 :: rest)
        = (XferRes.returned ((L : Nat) : Int), [⟨true, off, L, 0, L⟩])) := by
  have hfail : ∀ rem2 cur2 rt2, rc ≠ 0 →
      xferLoop XAccess.write off sg mr (EngineStep.writeRes rc :: rest)
          (rem2 + 1) cur2 rt2
        = (XferRes.returned (-1), [⟨true, off, rem2 + 1, cur2, 0⟩]) := by
    intro rem2 cur2 rt2 hrc
    simp only [xferLoop]
    rw [if_pos hrc]
  have hok : ∀ rem2 cur2 rt2,
      xferLoop XAccess.write off sg mr (EngineStep.writeRes 0 :: rest)
          (rem2 + 1) cur2 rt2
        = (XferRes.done, [⟨true, off, rem2 + 1, cur2, rem2 + 1⟩]) := by
    intro rem2 cur2 rt2
    simp only [xferLoop]
    rw [if_neg (by simp : ¬ (0 : Int) ≠ 0)]
  refine ⟨hfail rem cur rt, hok rem cur rt, ?_, ?_⟩
  · intro hrc hL
    cases L with
    | zero => omega
    | succ n =>
      unfold DFS_Xfer
      rw [hfail n 0 0 hrc]
  · intro hL
    cases L with
    | zero => omega
    | succ n =>
      unfold DFS_Xfer
      rw [hok n 0 0]
      rfl

theorem C4_write_policy_witness :
    ((-3 : Int) ≠ 0 ∧ 0 < 5)
    ∧ DFS_Xfer XAccess.write 7 false 3 5 [EngineStep.writeRes (-3)]
        = (XferRes.returned (-1), [⟨true, 7, 5, 0, 0⟩])
    ∧ DFS_Xfer XAccess.write 7 false 3 5 [EngineStep.writeRes 0]
        = (XferRes.returned ((5 : Nat) : Int), [⟨true, 7, 5, 0, 5⟩]) := by
  have h := C4_write_policy 7 false 3 4 0 0 5 (-3) []
  exact ⟨⟨by decide, by decide⟩, h.2.2.1 (by decide) (by decide),
    h.2.2.2 (by decide)⟩

/-- C5: the aggregate size query reduces per-worker sizes with sum when
files are per-process; for a shared file, when every worker observes the
same size that size is reported with no warning, and when observations
differ the consistency warning is emitted and the reported value is the
minimum of the observed sizes. -/
theorem C5_aggregate_size (sizes : List Int) (i : Fin sizes.length) :
    DFS_GetFileSize true sizes i = (sizes.sum, false)
    ∧ (∀ s, (∀ x ∈ sizes, x = s) → DFS_GetFileSize false sizes i = (s, false))
    ∧ ((∃ x ∈ sizes, ∃ y ∈ sizes, x ≠ y) →
        (DFS_GetFileSize false sizes i).2 = true
        ∧ (DFS_GetFileSize false sizes i).1 ∈ sizes
        ∧ (∀ x ∈ sizes, (DFS_GetFileSize false sizes i).1 ≤ x)) := by
  have hmem : sizes.get i ∈ sizes := sizes.get_mem i.1 i.2
  have hT : DFS_GetFileSize true sizes i = (allreduceSum sizes, false) := rfl
  have hF : DFS_GetFileSize false sizes i =
      (if allreduceMin sizes (sizes.get i) ≠ allreduceMax sizes (sizes.get i)
        then (allreduceMin sizes (sizes.get i), true)
        else (sizes.get i, false)) := rfl
  have hsum : allreduceSum sizes = sizes.sum := by
    show sizes.foldl (· + ·) 0 = sizes.sum
    rw [foldl_add_eq_sum, zero_add]
  refine ⟨by rw [hT, hsum], ?_, ?_⟩
  · intro s hall
    have hgs : sizes.get i = s := hall _ hmem
    have hmin : allreduceMin sizes (sizes.get i) = s := by
      show sizes.foldl min (sizes.get i) = s
      rw [hgs]
      exact foldl_min_const sizes s hall
    have hmax : allreduceMax sizes (sizes.get i) = s := by
      show sizes.foldl max (sizes.get i) = s
      rw [hgs]
      exact foldl_max_const sizes s hall
    rw [hF, if_neg (by rw [hmin, hmax]; exact fun h => h rfl), hgs]
  · rintro ⟨x, hx, y, hy, hxy⟩
    have h1 : allreduceMin sizes (sizes.get i) ≤ x :=
      foldl_min_le_mem sizes (sizes.get i) x hx
    have h2 : x ≤ allreduceMax sizes (sizes.get i) :=
      foldl_max_ge_mem sizes (sizes.get i) x hx
    have h3 : allreduceMin sizes (sizes.get i) ≤ y :=
      foldl_min_le_mem sizes (sizes.get i) y hy
    have h4 : y ≤ allreduceMax sizes (sizes.get i) :=
      foldl_max_ge_mem sizes (sizes.get i) y hy
    have hne : allreduceMin sizes (sizes.get i) ≠
        allreduceMax sizes (sizes.get i) := by
      intro heq
      rw [heq] at h1 h3
      exact hxy (le_antisymm (le_trans h2 h3) (le_trans h4 h1))
    have hres : DFS_GetFileSize false sizes i =
        (allreduceMin sizes (sizes.get i), true) := by
      rw [hF, if_pos hne]
    refine ⟨by rw [hres], ?_, ?_⟩
    · rw [hres]
      show sizes.foldl min (sizes.get i) ∈ sizes
      rcases foldl_min_choice sizes (sizes.get i) with h | h
      · rw [h]; exact hmem
      · exact h
    · intro z hz
      rw [hres]
      exact foldl_min_le_mem sizes (sizes.get i) z hz

theorem C5_aggregate_size_witness :
    DFS_GetFileSize true ([10, 20, 30] : List Int) ⟨0, by decide⟩ = (60, false)
    ∧ DFS_GetFileSize false ([100, 100, 100] : List Int) ⟨0, by decide⟩
        = (100, false)
    ∧ (DFS_GetFileSize false ([100, 100, 90] : List Int) ⟨0, by decide⟩).2 = true
    ∧ (DFS_GetFileSize false ([100, 100, 90] : List Int) ⟨0, by decide⟩).1 = 90 := by
  refine ⟨?_, ?_, ?_, by decide⟩
  · have h := (C5_aggregate_size ([10, 20, 30] : List Int) ⟨0, by decide⟩).1
    rw [h]
    decide
  · exact (C5_aggregate_size ([100, 100, 100] : List Int) ⟨0, by decide⟩).2.1
      100 (by decide)
  · exact ((C5_aggregate_size ([100, 100, 90] : List Int) ⟨0, by decide⟩).2.2
      (by decide)).1

/-- C7 counterexample: with destroy requested and a destroy status of 1,
every worker receives the non-zero status 1 from the broadcast, yet no
worker aborts, because the DCHECK macro terminates only on a negative
value; this refutes the claim that any non-zero destroy status makes the
workers abort. -/
theorem C7_counterexample :
    finalize_rc_after_bcast true 1 (fun _ => 0) 5 = 1
    ∧ (1 : Int) ≠ 0
    ∧ finalize_aborts (finalize_rc_after_bcast true 1 (fun _ => 0) 5) = false := by
  refine ⟨by decide, by decide, by decide⟩

/-- C7 (amended): teardown with destroy requested broadcasts the
coordinator's destroy status to every worker; all workers receive the
same value and take the same abort decision; a worker aborts exactly
when the received status is negative — in particular never on a zero
status (and also not on a positive one). -/
theorem C7_finalize_status (destroyRc : Int) (closeRc : Nat → Int) (r r2 : Nat) :
    finalize_rc_after_bcast true destroyRc closeRc r = destroyRc
    ∧ finalize_rc_after_bcast true destroyRc closeRc r
        = finalize_rc_after_bcast true destroyRc closeRc r2
    ∧ (finalize_aborts (finalize_rc_after_bcast true destroyRc closeRc r) = true
        ↔ destroyRc < 0)
    ∧ (destroyRc = 0 →
        finalize_aborts (finalize_rc_after_bcast true destroyRc closeRc r)
          = false) := by
  have hb : ∀ r3 : Nat, finalize_rc_after_bcast true destroyRc closeRc r3
      = destroyRc := by
    intro r3
    simp [finalize_rc_after_bcast, finalize_rc_before_bcast]
  have ha : finalize_aborts destroyRc = true ↔ destroyRc < 0 := by
    by_cases h0 : destroyRc = 0
    · subst h0
      simp [finalize_aborts]
    · simp [finalize_aborts, h0]
  refine ⟨hb r, by rw [hb r, hb r2], by rw [hb r]; exact ha, ?_⟩
  intro h0
  rw [hb r, h0]
  rfl

theorem C7_finalize_status_witness :
    finalize_rc_after_bcast true (-2) (fun _ => 7) 3 = -2
    ∧ (finalize_aborts (finalize_rc_after_bcast true (-2) (fun _ => 7) 3)
        = true ↔ (-2 : Int) < 0)
    ∧ finalize_aborts (finalize_rc_after_bcast true 0 (fun _ => 7) 3) = false :=
  ⟨(C7_finalize_status (-2) (fun _ => 7) 3 4).1,
   (C7_finalize_status (-2) (fun _ => 7) 3 4).2.2.1,
   (C7_finalize_status 0 (fun _ => 7) 3 4).2.2.2 rfl⟩

/-- C8: a transfer request of length zero returns 0 immediately: the
loop body never runs, no read or write call reaches the storage engine,
and the result is the same for every retry configuration and oracle. -/
theorem C8_zero_length_xfer (a : XAccess) (off : Int) (sg : Bool) (mr : Nat)
    (steps : List EngineStep) :
    DFS_Xfer a off sg mr 0 steps = (XferRes.returned 0, []) := by
  have h : xferLoop a off sg mr steps 0 0 0 = (XferRes.done, []) := by
    cases steps with
    | nil => rfl
    | cons st rest => cases st <;> cases a <;> rfl
  unfold DFS_Xfer
  rw [h]
  rfl

/-- C9: every storage-engine call issued by one transfer request —
including retries after short reads — carries the request's original
file offset, and each call's requested length plus the buffer cursor
equals the original length: only the cursor and the remaining count
advance between attempts. -/
theorem C9_offset_invariant (a : XAccess) (off : Int) (sg : Bool) (mr L : Nat)
    (steps : List EngineStep) (c : XferCall)
    (hc : c ∈ (DFS_Xfer a off sg mr L steps).2) :
    c.offset = off ∧ c.reqLen + c.cursor = L := by
  have hcalls : (DFS_Xfer a off sg mr L steps).2
      = (xferLoop a off sg mr steps L 0 0).2 := by
    unfold DFS_Xfer
    rcases xferLoop a off sg mr steps L 0 0 with ⟨res, cs⟩
    cases res <;> rfl
  rw [hcalls] at hc
  exact xferLoop_calls_frame a off sg mr steps L 0 0 L (by omega) c hc

theorem C9_offset_invariant_witness :
    (⟨false, 7, 3, 0, 2⟩ : XferCall)
      ∈ (DFS_Xfer XAccess.read 7 false 5 3
          [EngineStep.readRes 0 2, EngineStep.readRes 0 1]).2
    ∧ (⟨false, 7, 3, 0, 2⟩ : XferCall).offset = 7
    ∧ (⟨false, 7, 1, 2, 1⟩ : XferCall)
      ∈ (DFS_Xfer XAccess.read 7 false 5 3
          [EngineStep.readRes 0 2, EngineStep.readRes 0 1]).2
    ∧ (⟨false, 7, 1, 2, 1⟩ : XferCall).offset = 7 := by
  refine ⟨by decide, ?_, by decide, ?_⟩
  · exact (C9_offset_invariant XAccess.read 7 false 5 3
      [EngineStep.readRes 0 2, EngineStep.readRes 0 1] _ (by decide)).1
  · exact (C9_offset_invariant XAccess.read 7 false 5 3
      [EngineStep.readRes 0 2, EngineStep.readRes 0 1] _ (by decide)).1

/-- C10: when the resolved leaf name is exactly the dot component,
DFS_Access discards it and passes the null leaf to dfs_stat, statting
the resolved parent object itself; the access succeeds exactly when the
parent lookup and that stat succeed. -/
theorem C10_access_dot (path cwd d : String) (lookupRc : Int)
    (statRc : Option String → Int)
    (hp : parse_filename path cwd = (some dotStr, d)) (hl : lookupRc ≤ 0) :
    (lookupRc = 0 → (DFS_Access path cwd lookupRc statRc).statArg = some none)
    ∧ ((DFS_Access path cwd lookupRc statRc).result = 0 ↔
        (lookupRc = 0 ∧ statRc none = 0)) := by
  by_cases h0 : lookupRc = 0
  · subst h0
    simp only [DFS_Access, hp]
    rw [if_neg (by omega : ¬ (0 : Int) < 0)]
    constructor
    · intro _
      simp
    · by_cases hs : statRc none = 0 <;> simp [hs]
  · have hneg : lookupRc < 0 := lt_of_le_of_ne hl h0
    simp only [DFS_Access, hp]
    rw [if_pos hneg]
    constructor
    · intro h
      exact absurd h h0
    · constructor
      · intro h
        simp at h
      · rintro ⟨h, -⟩
        exact absurd h h0

theorem C10_access_dot_witness :
    parse_filename (".") ("/w") = (some dotStr, ("/w"))
    ∧ (DFS_Access (".") ("/w") 0 (fun _ => 0)).statArg = some none
    ∧ ((DFS_Access (".") ("/w") 0 (fun _ => 0)).result = 0 ↔
        ((0 : Int) = 0 ∧ (fun _ : Option String => (0 : Int)) none = 0)) := by
  refine ⟨by decide, ?_, ?_⟩
  · exact (C10_access_dot (".") ("/w") ("/w") 0 (fun _ => 0)
      (by decide) (by decide)).1 rfl
  · exact (C10_access_dot (".") ("/w") ("/w") 0 (fun _ => 0)
      (by decide) (by decide)).2
